import Mathlib

/-!
Verification development for `style_transfer/style_transfer.py`, the multi-scale
neural style transfer engine.

The Python source is shallowly embedded: pixel and gradient tensors become flat
lists of rationals (`List ℚ`), elementwise tensor operations become `List.map`,
tensor reductions become `List.sum` or `Finset.sum`, and the Adam optimizer
state dict (`opt.state_dict()`) becomes an explicit structure.  The library
interpolation routine `torch.nn.functional.interpolate` is external library
code, so it is threaded through the definitions as an explicit function
parameter wherever the source calls it; the properties proved below hold for
every choice of that parameter.  Machine floating point is modelled by exact
rational arithmetic.
-/

namespace StyleTransferPy

/-- A tensor's numeric payload, flattened to a list of exact rationals. -/
abbrev Tensor := List ℚ

/-- Elementwise `clamp(0, 1)` of a single scalar, as in `tensor.clamp(0, 1)`. -/
def clamp01 (x : ℚ) : ℚ := max 0 (min 1 x)

/-- Elementwise `clamp(0, 1)` of a whole tensor: `self.image.clamp_(0, 1)` and
`interpolate(...).clamp(0, 1)` in `StyleTransfer.stylize`. -/
def clampT (t : Tensor) : Tensor := t.map clamp01

/-- Elementwise `relu_()`: each entry is replaced by `max entry 0`, as applied
in-place to `exp_avg_sq` inside `scale_adam`. -/
def reluT (t : Tensor) : Tensor := t.map (fun x => max x 0)

/-- An all-zero tensor of a given element count, the freshly initialized Adam
moment buffer (`torch.optim.Adam` initializes `exp_avg` and `exp_avg_sq` with
`torch.zeros_like(p)` and `step` with `0` for each parameter). -/
def zerosT (n : ℕ) : Tensor := List.replicate n 0

/-- The per-parameter entry of an Adam optimizer state dict: the step counter
and the first and second raw moment estimates.  This mirrors one value of
`state_dict()['state']` for `torch.optim.Adam`. -/
structure ParamState where
  step : ℕ
  exp_avg : Tensor
  exp_avg_sq : Tensor
deriving DecidableEq

/-- One entry of `state_dict()['param_groups']` for `torch.optim.Adam`: the
scalar hyperparameters of the optimizer. -/
structure ParamGroup where
  lr : ℚ
  beta1 : ℚ
  beta2 : ℚ
  eps : ℚ
  weight_decay : ℚ
deriving DecidableEq

/-- An Adam optimizer state dict (`opt.state_dict()`): the per-parameter moment
state (in parameter order) and the hyperparameter groups. -/
structure AdamSD where
  state : List ParamState
  param_groups : List ParamGroup
deriving DecidableEq

/-- Embedding of `scale_adam(state, shape)` (style_transfer.py lines 147-155).
The source deep-copies the state dict, then for every per-parameter group
replaces `exp_avg` by a bicubic interpolation to `shape`, replaces
`exp_avg_sq` by a bilinear interpolation to `shape`, and applies `relu_()`
in place to the interpolated `exp_avg_sq`.  Nothing else in the copy is
touched.  The two `F.interpolate` calls are external torch library code and
are passed in as the function parameters `interpBicubic` and
`interpBilinear`. -/
def scale_adam (interpBicubic interpBilinear : Tensor → ℕ × ℕ → Tensor)
    (sd : AdamSD) (shape : ℕ × ℕ) : AdamSD :=
  { sd with
    state := sd.state.map (fun g =>
      { g with
        exp_avg := interpBicubic g.exp_avg shape,
        exp_avg_sq := reluT (interpBilinear g.exp_avg_sq shape) }) }

/-- Embedding of the full call `scale_adam(state, shape)` together with its
effect on the caller: the function's first statement is
`state = copy.deepcopy(state)`, so every subsequent in-place update hits the
deep copy only.  The first component is the returned (transformed) state, the
second component is the caller's source object as observed after the call. -/
def scale_adam_call (interpBicubic interpBilinear : Tensor → ℕ × ℕ → Tensor)
    (sd : AdamSD) (shape : ℕ × ℕ) : AdamSD × AdamSD :=
  (scale_adam interpBicubic interpBilinear sd shape, sd)

/-- Entries of `reluT` are nonnegative. -/
theorem reluT_nonneg (t : Tensor) : ∀ x ∈ reluT t, 0 ≤ x := by
  intro x hx
  rcases List.mem_map.1 hx with ⟨y, _, rfl⟩
  exact le_max_right y 0

/-- The step counters of all per-parameter groups are untouched by
`scale_adam`. -/
theorem scale_adam_step_map (iB iL : Tensor → ℕ × ℕ → Tensor) (sd : AdamSD)
    (shape : ℕ × ℕ) :
    (scale_adam iB iL sd shape).state.map ParamState.step
      = sd.state.map ParamState.step := by
  simp [scale_adam]

/-- C6: for every input optimizer state and every target spatial shape, and in
fact for every behaviour of the two library interpolation routines, every
entry of every per-parameter second-moment tensor (`exp_avg_sq`) produced by
`scale_adam` is nonnegative, because the interpolated tensor is passed through
an in-place `relu_()`. -/
theorem scale_adam_exp_avg_sq_nonneg
    (iB iL : Tensor → ℕ × ℕ → Tensor) (sd : AdamSD) (shape : ℕ × ℕ) :
    ∀ g ∈ (scale_adam iB iL sd shape).state, ∀ x ∈ g.exp_avg_sq, 0 ≤ x := by
  intro g hg
  simp only [scale_adam, List.mem_map] at hg
  rcases hg with ⟨g0, _, rfl⟩
  exact reluT_nonneg _

/-- Witness for C6 at a concrete state and shape: the interpolation is chosen
to output `[-1, 2]`, so the resampled second moment is `relu [-1, 2] = [0, 2]`
and the entry `0` produced from the negative input is nonnegative. -/
theorem scale_adam_exp_avg_sq_nonneg_witness : (0 : ℚ) ≤ 0 :=
  scale_adam_exp_avg_sq_nonneg (fun t _ => t) (fun _ _ => [-1, 2])
    ⟨[⟨3, [5], [7]⟩], []⟩ (1, 1)
    ⟨3, [5], reluT [-1, 2]⟩ (by simp [scale_adam])
    0 (by norm_num [reluT])

/-- C7: `scale_adam` is a pure transform of the optimizer state: the caller's
source state object is unchanged by the call (the source deep-copies before
mutating), and in the returned state everything other than the two moment
tensors is carried over unchanged — the hyperparameter groups are identical
and every per-parameter step counter is preserved. -/
theorem scale_adam_pure_frame
    (iB iL : Tensor → ℕ × ℕ → Tensor) (sd : AdamSD) (shape : ℕ × ℕ) :
    (scale_adam_call iB iL sd shape).2 = sd
    ∧ (scale_adam_call iB iL sd shape).1.param_groups = sd.param_groups
    ∧ (scale_adam_call iB iL sd shape).1.state.map ParamState.step
        = sd.state.map ParamState.step :=
  ⟨rfl, rfl, scale_adam_step_map iB iL sd shape⟩

/-- Embedding of `torchvision.transforms.functional.to_pil_image` applied to a
float tensor with values in `[0, 1]`: each channel value is scaled by 255 and
truncated to an integer byte value. -/
def to_pil_image (t : Tensor) : List ℤ := t.map (fun x => Int.floor (x * 255))

/-- The engine state relevant to `get_image`: the `self.image` attribute,
which `StyleTransfer.__init__` sets to `None` and only `stylize`
re-assigns. -/
structure StyleTransferState where
  image : Option Tensor

/-- Embedding of `StyleTransfer.__init__` restricted to the `image` field:
`self.image = None`. -/
def styleTransferInit : StyleTransferState := { image := none }

/-- Embedding of `StyleTransfer.get_image` (lines 172-174): when `self.image`
is not `None` it returns the PIL conversion of the tensor; otherwise the
method body falls through and Python returns `None`.  The embedding is a total
function, as the source method has no failing path. -/
def get_image (s : StyleTransferState) : Option (List ℤ) :=
  match s.image with
  | some img => some (to_pil_image img)
  | none => none

/-- C10: on a freshly constructed engine, on which `stylize` has never run,
`get_image` returns `None`; the accessor is total, so it cannot raise in that
state. -/
theorem get_image_init_none : get_image styleTransferInit = none := rfl

/-- Embedding of the `WeightedLoss` module (lines 71-87): an ordered list of
loss terms (each a function of the shared input, here an arbitrary type `α`),
a parallel list of scalar weights, and the `verbose` flag. -/
structure WeightedLoss (α : Type) where
  losses : List (α → ℚ)
  weights : List ℚ
  verbose : Bool

/-- Embedding of `WeightedLoss.forward`: the source builds
`losses = [loss(*args) * weight for loss, weight in zip(self, self.weights)]`,
then, if `verbose`, prints exactly the entries of that list in order via
`_print_losses(losses)`, and returns `sum(losses)`.  The first component is
the returned scalar, the second the sequence of values printed (empty when
`verbose` is off). -/
def weightedForward {α : Type} (wl : WeightedLoss α) (x : α) : ℚ × List ℚ :=
  let ls := (wl.losses.zip wl.weights).map (fun p => p.1 x * p.2)
  (ls.sum, if wl.verbose then ls else [])

/-- C5 counterexample: a single term of raw value `2` with weight `3`, in
verbose mode.  The claim says the reported diagnostic is the term's raw
(unweighted) value `2`; the code appends `loss * weight` before printing, so
the value actually reported is the weighted `6`. -/
theorem weightedForward_reports_weighted_not_raw :
    (weightedForward ⟨[fun _ => 2], [3], true⟩ ()).2
        ≠ [fun (_ : Unit) => (2 : ℚ)].map (fun l => l ()) := by
  simp only [weightedForward, List.zip_cons_cons, List.zip_nil_right,
    List.map_cons, List.map_nil, if_pos]
  intro h
  have h2 := List.head_eq_of_cons_eq h
  norm_num at h2

/-- C5 (amended): `WeightedLoss.forward` returns the sum over terms of
(term value × weight); the verbose flag does not alter the returned sum; and
in verbose mode the values reported, in term order, are the weighted products
(not the raw term values). -/
theorem weightedForward_spec {α : Type} (wl : WeightedLoss α) (x : α) :
    (weightedForward wl x).1
        = ((wl.losses.zip wl.weights).map (fun p => p.1 x * p.2)).sum
    ∧ (weightedForward wl x).1
        = (weightedForward ⟨wl.losses, wl.weights, false⟩ x).1
    ∧ (weightedForward wl x).2
        = (if wl.verbose
            then (wl.losses.zip wl.weights).map (fun p => p.1 x * p.2)
            else []) :=
  ⟨rfl, rfl, rfl⟩

/-- The L1 norm of a flattened sample: `abs(i).sum(...)` in
`Normalize._hook` sums the absolute values over all non-batch dimensions. -/
def l1norm (s : List ℚ) : ℚ := (s.map abs).sum

/-- The rescaling `Normalize._hook` applies to one sample of `grad_input[0]`:
every entry `x` of the sample becomes `x * scale / (norm + eps)` where `norm`
is the sample's own L1 norm (the `keepdims=True` sum broadcasts the per-sample
norm over that sample's entries). -/
def hookSample (scale eps : ℚ) (samp : List ℚ) : List ℚ :=
  samp.map (fun x => x * scale / (l1norm samp + eps))

/-- Embedding of `Normalize._hook` on the full gradient `i = grad_input[0]`,
modelled as a batch (outer list) of flattened samples (inner lists): the hook
returns `i * self.scale / (norm + self.eps)` with `norm` computed per
sample. -/
def normalizeHook (scale eps : ℚ) (g : List (List ℚ)) : List (List ℚ) :=
  g.map (hookSample scale eps)

/-- Embedding of the `Normalize` wrapper module (lines 90-108): the wrapped
module (as a function from its input to the scalar loss), the target gradient
scale, and the epsilon guard. -/
structure NormalizeW (α : Type) where
  module : α → ℚ
  scale : ℚ
  eps : ℚ

/-- Embedding of `Normalize.forward`: `return self.module(*args, **kwargs)` —
the wrapper forwards the call unchanged. -/
def normalizeForward {α : Type} (n : NormalizeW α) (x : α) : ℚ := n.module x

/-- Sum of a list after multiplying every element by a constant. -/
theorem list_sum_map_mul_const (l : List ℚ) (c : ℚ) :
    (l.map (fun x => x * c)).sum = l.sum * c := by
  induction l with
  | nil => simp
  | cons a t ih => simp [ih, add_mul]

/-- The L1 norm is nonnegative. -/
theorem l1norm_nonneg (s : List ℚ) : 0 ≤ l1norm s := by
  apply List.sum_nonneg
  intro x hx
  rcases List.mem_map.1 hx with ⟨y, _, rfl⟩
  exact abs_nonneg y

/-- The L1 norm of a rescaled sample is the rescaling factor's absolute value
times the original norm. -/
theorem l1norm_map_mul (s : List ℚ) (c : ℚ) :
    l1norm (s.map (fun x => x * c)) = |c| * l1norm s := by
  simp only [l1norm, List.map_map]
  have h : (abs ∘ fun x => x * c) = fun x : ℚ => |x| * |c| := by
    funext x
    simp [Function.comp, abs_mul]
  rw [h]
  have h2 : s.map (fun x : ℚ => |x| * |c|) = (s.map abs).map (fun y => y * |c|) := by
    simp [List.map_map]
  rw [h2, list_sum_map_mul_const, mul_comm]

/-- C3: for every loss term wrapped by `Normalize` and every sample of the
backward gradient, (i) the forward loss value returned for logging is exactly
the wrapped module's value, untouched by the wrapper; (ii) the hook rescales
the sample so its L1 norm becomes `norm * scale / (norm + eps)`; and (iii)
with the epsilon guard absent (`eps = 0`) and the norm nonzero, the rescaled
sample's L1 norm is exactly the target scale — the epsilon's only effect is
the additive guard in the denominator. -/
theorem normalize_gradient_norm {α : Type} (n : NormalizeW α) (x : α)
    (samp : List ℚ) (hs : 0 ≤ n.scale) (he : 0 ≤ n.eps) :
    normalizeForward n x = n.module x
    ∧ l1norm (hookSample n.scale n.eps samp)
        = l1norm samp * n.scale / (l1norm samp + n.eps)
    ∧ (n.eps = 0 → l1norm samp ≠ 0 →
        l1norm (hookSample n.scale n.eps samp) = n.scale) := by
  have hnorm : l1norm (hookSample n.scale n.eps samp)
      = l1norm samp * n.scale / (l1norm samp + n.eps) := by
    have hfac : 0 ≤ n.scale / (l1norm samp + n.eps) :=
      div_nonneg hs (add_nonneg (l1norm_nonneg samp) he)
    calc l1norm (hookSample n.scale n.eps samp)
        = |n.scale / (l1norm samp + n.eps)| * l1norm samp := by
          simp only [hookSample]
          have h : (fun x : ℚ => x * n.scale / (l1norm samp + n.eps))
              = fun x : ℚ => x * (n.scale / (l1norm samp + n.eps)) := by
            funext x
            rw [mul_div_assoc]
          rw [h, l1norm_map_mul]
      _ = l1norm samp * n.scale / (l1norm samp + n.eps) := by
          rw [abs_of_nonneg hfac, mul_comm, mul_div_assoc]
  refine ⟨rfl, hnorm, ?_⟩
  intro h0 hne
  rw [hnorm, h0, add_zero]
  exact mul_div_cancel_left₀ _ hne

/-- Witness for C3 at a concrete wrapper and gradient sample: module value 7,
scale 2, eps 0, sample `[3, -1]` of L1 norm 4; the rescaled sample
`[3·2/4, -1·2/4]` has L1 norm exactly 2 = scale. -/
theorem normalize_gradient_norm_witness :
    normalizeForward ⟨fun _ => 7, 2, 0⟩ () = (⟨fun _ => 7, 2, 0⟩ : NormalizeW Unit).module ()
    ∧ l1norm (hookSample 2 0 [3, -1]) = l1norm [3, -1] * 2 / (l1norm [3, -1] + 0)
    ∧ ((0 : ℚ) = 0 → l1norm [(3 : ℚ), -1] ≠ 0 →
        l1norm (hookSample 2 0 [3, -1]) = 2) :=
  normalize_gradient_norm ⟨fun _ => 7, 2, 0⟩ () [3, -1] (by norm_num) (by norm_num)

/-- The inner iteration loop of `StyleTransfer.stylize` (lines 238-247), as it
acts on the working image: each iteration computes the losses, backpropagates,
applies one optimizer step — everything up to and including `opt.step()` is
the external, arbitrary update `stepF` — and immediately clamps the image in
place with `self.image.clamp_(0, 1)`.  Returns the list of images observed
after each iteration's clamp, together with the final image. -/
def optRun (stepF : ℕ → Tensor → Tensor) : ℕ → Tensor → List Tensor × Tensor
  | 0, cur => ([], cur)
  | n + 1, cur =>
    let next := clampT (stepF n cur)
    let r := optRun stepF n next
    (next :: r.1, r.2)

/-- The scale loop of `StyleTransfer.stylize` (lines 200-247), as it acts on
the working image: at each scale the image is resized by the external
interpolation `interps` and clamped (`interpolate(...).clamp(0, 1)`, line
208), then the iteration loop runs.  Returns every image observed at a
checkpoint — immediately after each resize's clamp and immediately after each
optimizer step's clamp — together with the final image. -/
def stylizeImages (interps : ℕ → Tensor → Tensor)
    (stepFs : ℕ → ℕ → Tensor → Tensor) (iters : ℕ) (img0 : Tensor) :
    ℕ → List Tensor × Tensor
  | 0 => ([], img0)
  | s + 1 =>
    let r := stylizeImages interps stepFs iters img0 s
    let resized := clampT (interps s r.2)
    let o := optRun (stepFs s) iters resized
    (r.1 ++ resized :: o.1, o.2)

/-- Every entry of a clamped tensor lies in `[0, 1]`. -/
theorem clampT_mem_bounds (t : Tensor) : ∀ x ∈ clampT t, 0 ≤ x ∧ x ≤ 1 := by
  intro x hx
  rcases List.mem_map.1 hx with ⟨y, _, rfl⟩
  exact ⟨le_max_left 0 _, max_le zero_le_one (min_le_left 1 y)⟩

/-- Every image recorded by the iteration loop is a clamped tensor. -/
theorem optRun_mem_clamped (stepF : ℕ → Tensor → Tensor) :
    ∀ (n : ℕ) (cur : Tensor), ∀ t ∈ (optRun stepF n cur).1, ∃ u, t = clampT u := by
  intro n
  induction n with
  | zero => intro cur t ht; simp [optRun] at ht
  | succ k ih =>
    intro cur t ht
    simp only [optRun, List.mem_cons] at ht
    rcases ht with h | h
    · exact ⟨stepF k cur, h⟩
    · exact ih (clampT (stepF k cur)) t h

/-- Every image recorded by the scale loop is a clamped tensor. -/
theorem stylizeImages_mem_clamped (interps : ℕ → Tensor → Tensor)
    (stepFs : ℕ → ℕ → Tensor → Tensor) (iters : ℕ) (img0 : Tensor) :
    ∀ (n : ℕ), ∀ t ∈ (stylizeImages interps stepFs iters img0 n).1,
      ∃ u, t = clampT u := by
  intro n
  induction n with
  | zero => intro t ht; simp [stylizeImages] at ht
  | succ k ih =>
    intro t ht
    simp only [stylizeImages, List.mem_append, List.mem_cons] at ht
    rcases ht with h | h | h
    · exact ih t h
    · exact ⟨_, h⟩
    · rcases optRun_mem_clamped _ _ _ t h with ⟨u, hu⟩
      exact ⟨u, hu⟩

/-- C2: for every configuration (any number of scales, any iteration count,
any starting image, and any behaviour of the external interpolation and of
the optimizer step), every channel value of the working image lies in
`[0, 1]` at every checkpoint of the run — immediately after every resize and
immediately after every optimizer step — because both updates are followed
on the spot by a clamp to `[0, 1]`. -/
theorem stylize_image_in_unit_range (interps : ℕ → Tensor → Tensor)
    (stepFs : ℕ → ℕ → Tensor → Tensor) (iters : ℕ) (img0 : Tensor) (n : ℕ) :
    ∀ t ∈ (stylizeImages interps stepFs iters img0 n).1,
      ∀ x ∈ t, 0 ≤ x ∧ x ≤ 1 := by
  intro t ht x hx
  rcases stylizeImages_mem_clamped interps stepFs iters img0 n t ht with ⟨u, rfl⟩
  exact clampT_mem_bounds u x hx

/-- Witness for C2 on a concrete run: one scale, one iteration, starting image
`[1/2]`, an interpolation that scales by 3 (whose clamp yields `[1]`) and an
optimizer step that subtracts 7 (whose clamp yields `[0]`); the checkpoint
value `1` observed right after the resize satisfies `0 ≤ 1 ∧ 1 ≤ 1`. -/
theorem stylize_image_in_unit_range_witness : (0 : ℚ) ≤ 1 ∧ (1 : ℚ) ≤ 1 :=
  stylize_image_in_unit_range (fun _ t => t.map (· * 3))
    (fun _ _ t => t.map (· - 7)) 1 [1/2] 1
    (clampT [1/2 * 3])
    (by simp [stylizeImages, optRun, stylizeImages])
    1
    (by norm_num [clampT, clamp01])

/-- Embedding of `TVLoss.forward` on one channel plane (a list of rows).
Mirrors the tensor slicing of lines 65-68 on the last two (spatial)
dimensions: `[..., :-1, :-1]` is `dropLast` of the rows and `dropLast` within
each row, `[..., :-1, 1:]` is `tail` within each row, `[..., 1:, :-1]` is
`tail` of the rows; tensor subtraction, squaring and addition are elementwise
(`zip` + `map`), and `torch.sum` is the sum of all entries. -/
def tvPlane (plane : List (List ℚ)) : ℚ :=
  let base := plane.dropLast.map List.dropLast
  let right := plane.dropLast.map List.tail
  let below := plane.tail.map List.dropLast
  let xd := (base.zip right).map (fun rr => (rr.1.zip rr.2).map (fun p => p.1 - p.2))
  let yd := (base.zip below).map (fun rr => (rr.1.zip rr.2).map (fun p => p.1 - p.2))
  ((xd.zip yd).map (fun rr => ((rr.1.zip rr.2).map (fun p => p.1 ^ 2 + p.2 ^ 2)).sum)).sum

/-- Embedding of `TVLoss.forward` (lines 63-68) on an image given as a list of
channel planes: the leading (batch and channel) dimensions covered by `...`
take part in the elementwise arithmetic independently, and the final
`torch.sum` adds every entry, so the loss is the sum of the per-plane
losses. -/
def TVLoss (img : List (List (List ℚ))) : ℚ := (img.map tvPlane).sum

/-- A channel plane of height `h` and width `w` whose pixel at row `i`,
column `j` is `f i j`. -/
def mkPlane (h w : ℕ) (f : ℕ → ℕ → ℚ) : List (List ℚ) :=
  (List.range h).map (fun i => (List.range w).map (f i))

/-- An image of `c` channel planes of height `h` and width `w` whose value at
channel `k`, row `i`, column `j` is `a k i j`. -/
def mkImg (c h w : ℕ) (a : ℕ → ℕ → ℕ → ℚ) : List (List (List ℚ)) :=
  (List.range c).map (fun k => mkPlane h w (a k))

/-- Modelled from the spec sentence for C4: "sum over each pixel of the
squared finite difference to its right neighbor plus the squared finite
difference to its below neighbor ... every pixel that has a right neighbor
contributes its horizontal difference, and every pixel that has a below
neighbor contributes its vertical difference": horizontal terms range over
all `h` rows (and the `w - 1` columns that have a right neighbor), vertical
terms over all `w` columns (and the `h - 1` rows that have a below
neighbor). -/
def tvClaimed (c h w : ℕ) (a : ℕ → ℕ → ℕ → ℚ) : ℚ :=
  ∑ k ∈ Finset.range c,
    ((∑ i ∈ Finset.range h, ∑ j ∈ Finset.range (w - 1),
        (a k i j - a k i (j + 1)) ^ 2)
      + ∑ i ∈ Finset.range (h - 1), ∑ j ∈ Finset.range w,
          (a k i j - a k (i + 1) j) ^ 2)

/-- Dropping the last element of `range`. -/
theorem dropLast_range (m : ℕ) : (List.range m).dropLast = List.range (m - 1) := by
  cases m with
  | zero => rfl
  | succ k => rw [List.range_succ, List.dropLast_concat]; rfl

/-- The tail of `range` is the shifted range. -/
theorem tail_range (m : ℕ) : (List.range m).tail = (List.range (m - 1)).map Nat.succ := by
  cases m with
  | zero => rfl
  | succ k => rw [List.range_succ_eq_map]; rfl

/-- Summing a function mapped over `List.range` is a `Finset.range` sum. -/
theorem sum_map_range (n : ℕ) (f : ℕ → ℚ) :
    ((List.range n).map f).sum = ∑ i ∈ Finset.range n, f i := by
  induction n with
  | zero => simp
  | succ k ih =>
    rw [List.range_succ, Finset.sum_range_succ, List.map_append, List.sum_append, ih]
    simp

/-- The per-plane total variation of a rectangular plane, in closed form: only
pixels outside the last row and outside the last column contribute, each with
both its horizontal and its vertical squared difference. -/
theorem tvPlane_formula (h w : ℕ) (f : ℕ → ℕ → ℚ) :
    tvPlane (mkPlane h w f)
      = ∑ i ∈ Finset.range (h - 1), ∑ j ∈ Finset.range (w - 1),
          ((f i j - f i (j + 1)) ^ 2 + (f i j - f (i + 1) j) ^ 2) := by
  have hbase : (mkPlane h w f).dropLast.map List.dropLast
      = (List.range (h - 1)).map (fun i => (List.range (w - 1)).map (f i)) := by
    rw [mkPlane, ← List.map_dropLast, dropLast_range, List.map_map]
    refine List.map_congr_left (fun i _ => ?_)
    simp only [Function.comp]
    rw [← List.map_dropLast, dropLast_range]
  have hright : (mkPlane h w f).dropLast.map List.tail
      = (List.range (h - 1)).map
          (fun i => (List.range (w - 1)).map (fun j => f i (j + 1))) := by
    rw [mkPlane, ← List.map_dropLast, dropLast_range, List.map_map]
    refine List.map_congr_left (fun i _ => ?_)
    simp only [Function.comp]
    rw [← List.map_tail, tail_range, List.map_map]
    rfl
  have hbelow : (mkPlane h w f).tail.map List.dropLast
      = (List.range (h - 1)).map
          (fun i => (List.range (w - 1)).map (f (i + 1))) := by
    rw [mkPlane, ← List.map_tail, tail_range, List.map_map, List.map_map]
    refine List.map_congr_left (fun i _ => ?_)
    simp only [Function.comp]
    rw [← List.map_dropLast, dropLast_range]
  rw [tvPlane]
  simp only [hbase, hright, hbelow, List.zip_map', List.map_map]
  rw [sum_map_range]
  refine Finset.sum_congr rfl (fun i _ => ?_)
  simp only [Function.comp, List.zip_map', List.map_map]
  rw [sum_map_range]
  rfl

/-- The total-variation loss of a `c × h × w` image, in closed form (helper
shared by the statement and the counterexample below). -/
theorem TVLoss_mkImg_eq (c h w : ℕ) (a : ℕ → ℕ → ℕ → ℚ) :
    TVLoss (mkImg c h w a)
      = ∑ k ∈ Finset.range c, ∑ i ∈ Finset.range (h - 1), ∑ j ∈ Finset.range (w - 1),
          ((a k i j - a k i (j + 1)) ^ 2 + (a k i j - a k (i + 1) j) ^ 2) := by
  rw [TVLoss, mkImg, List.map_map]
  rw [sum_map_range]
  refine Finset.sum_congr rfl (fun k _ => ?_)
  exact tvPlane_formula h w (a k)

/-- C4 (amended): the total-variation loss sums, over each channel and over
each pixel that is outside the last row and outside the last column, the
squared difference to the right neighbor plus the squared difference to the
below neighbor.  Pixels of the last row contribute no horizontal term (even
though they have right neighbors) and pixels of the last column contribute no
vertical term (even though they have below neighbors), because both
difference tensors are built from the common `[..., :-1, :-1]` slice. -/
theorem TVLoss_formula (c h w : ℕ) (a : ℕ → ℕ → ℕ → ℚ) :
    TVLoss (mkImg c h w a)
      = ∑ k ∈ Finset.range c, ∑ i ∈ Finset.range (h - 1), ∑ j ∈ Finset.range (w - 1),
          ((a k i j - a k i (j + 1)) ^ 2 + (a k i j - a k (i + 1) j) ^ 2) :=
  TVLoss_mkImg_eq c h w a

/-- C4 counterexample: the one-channel 2×2 image `[[0, 0], [0, 1]]`.  The
code's loss is `(0-0)² + (0-0)² = 0`: the horizontal pair `(0, 1)` of the
last row and the vertical pair `(0, 1)` of the last column are both sliced
away.  The claimed per-pixel formula also counts those two pairs and yields
`2`. -/
theorem TVLoss_counterexample :
    TVLoss (mkImg 1 2 2 (fun _ i j => if i = 1 ∧ j = 1 then 1 else 0))
      ≠ tvClaimed 1 2 2 (fun _ i j => if i = 1 ∧ j = 1 then 1 else 0) := by
  rw [TVLoss_mkImg_eq]
  norm_num [tvClaimed, Finset.sum_range_succ]

/-- The `flatten(-2)` of an activation in `StyleLoss.get_target` (line 56):
the two spatial dimensions of a `c × h × w` activation are merged row-major,
so flat position `p` holds the value at row `p / w` and column `p % w`
(`Fin.divNat` and `Fin.modNat` are exactly those index computations).  The
leading batch dimension of size 1 takes no part in the arithmetic and is
dropped. -/
def flattenAct (c h w : ℕ) (act : Fin c → Fin h → Fin w → ℚ) :
    Fin c → Fin (h * w) → ℚ :=
  fun i p => act i p.divNat p.modNat

/-- Embedding of `StyleLoss.get_target` (lines 54-57): with
`mat = target.flatten(-2)`, the result is `mat @ mat.transpose(-2, -1)`
divided by `mat.shape[-1] = h * w`; its `(i, j)` entry is the inner product
of feature rows `i` and `j` over all spatial positions, divided by the number
of spatial positions. -/
def get_target (c h w : ℕ) (act : Fin c → Fin h → Fin w → ℚ) (i j : Fin c) : ℚ :=
  (∑ p : Fin (h * w), flattenAct c h w act i p * flattenAct c h w act j p)
    / ((h * w : ℕ) : ℚ)

/-- Summing a function of the decoded (row, column) pair over all flat
positions is summing over the spatial grid. -/
theorem sum_divNat_modNat (h w : ℕ) (G : Fin h × Fin w → ℚ) :
    (∑ p : Fin (h * w), G (p.divNat, p.modNat)) = ∑ q, G q := by
  have h1 : ∀ p : Fin (h * w), (p.divNat, p.modNat) = finProdFinEquiv.symm p :=
    fun p => rfl
  calc (∑ p : Fin (h * w), G (p.divNat, p.modNat))
      = ∑ p : Fin (h * w), G (finProdFinEquiv.symm p) :=
        Finset.sum_congr rfl (fun p _ => by rw [h1])
    _ = ∑ q, G q := Equiv.sum_comp finProdFinEquiv.symm G

/-- C8: the Gram-style target matrix computed by `StyleLoss.get_target` is
invariant under every permutation of the activation's spatial positions: the
flatten-and-multiply definition only ever sums over all positions, so
relocating the positions leaves every entry of the target unchanged. -/
theorem get_target_perm_invariant (c h w : ℕ) (act : Fin c → Fin h → Fin w → ℚ)
    (σ : Equiv.Perm (Fin h × Fin w)) (i j : Fin c) :
    get_target c h w (fun k r s => act k (σ (r, s)).1 (σ (r, s)).2) i j
      = get_target c h w act i j := by
  simp only [get_target, flattenAct]
  congr 1
  rw [sum_divNat_modNat h w
      (fun q => act i (σ q).1 (σ q).2 * act j (σ q).1 (σ q).2),
    sum_divNat_modNat h w (fun q => act i q.1 q.2 * act j q.1 q.2)]
  exact Equiv.sum_comp σ (fun q => act i q.1 q.2 * act j q.1 q.2)

/-- An n-dimensional tensor: its shape (list of dimension sizes, outermost
first) and its value at each multi-index. -/
structure TensorND where
  shape : List ℕ
  val : List ℕ → ℚ

/-- Broadcasting of two shape suffixes, aligned from the last dimension (the
lists here are reversed shapes): dimensions are compatible when equal or when
one of them is 1, and the missing leading dimensions of the shorter shape are
treated as 1.  This is the semantics of `torch.broadcast_tensors`, which
`torch.nn.functional.mse_loss` applies to its two arguments. -/
def bdims : List ℕ → List ℕ → Option (List ℕ)
  | [], ys => some ys
  | x :: xs, [] => some (x :: xs)
  | x :: xs, y :: ys =>
    match bdims xs ys with
    | none => none
    | some rest =>
      if x = y then some (x :: rest)
      else if x = 1 then some (y :: rest)
      else if y = 1 then some (x :: rest)
      else none

/-- The broadcast shape of two shapes, or `none` when they are not
broadcastable. -/
def broadcastShapes (s t : List ℕ) : Option (List ℕ) :=
  (bdims s.reverse t.reverse).map List.reverse

/-- All multi-indices of a shape, in row-major order. -/
def indicesOf : List ℕ → List (List ℕ)
  | [] => [[]]
  | d :: rest => (List.range d).flatMap (fun i => (indicesOf rest).map (i :: ·))

/-- Reading a tensor at a multi-index of the broadcast shape: the leading
broadcast dimensions absent from the tensor's own shape are dropped, and in
every dimension of size 1 the index is collapsed to 0 (the tensor's single
entry is replicated along that dimension). -/
def readB (t : TensorND) (ix : List ℕ) : ℚ :=
  t.val ((t.shape.zip (ix.drop (ix.length - t.shape.length))).map
    (fun p => if p.1 = 1 then 0 else p.2))

/-- Embedding of `torch.nn.functional.mse_loss(input, target,
reduction='sum')` as called by `ContentLoss.forward` (line 46).  Per the
torch implementation, when the two sizes differ the function emits a
`UserWarning` and broadcasts the tensors against each other; it raises only
when the shapes are not broadcastable (the `torch.broadcast_tensors` call
fails).  The reduction `'sum'` adds the squared differences over every
position of the broadcast shape. -/
def mse_loss_sum (input target : TensorND) : Except String ℚ :=
  match broadcastShapes input.shape target.shape with
  | none => Except.error "RuntimeError: tensors are not broadcastable"
  | some s =>
    Except.ok (((indicesOf s).map
      (fun ix => (readB input ix - readB target ix) ^ 2)).sum)

/-- Embedding of the `ContentLoss` module (lines 40-46): it stores the fixed
target activation at construction. -/
structure ContentLoss where
  target : TensorND

/-- Embedding of `ContentLoss.forward`:
`F.mse_loss(input, self.target, reduction='sum')`. -/
def ContentLoss.forward (cl : ContentLoss) (input : TensorND) : Except String ℚ :=
  mse_loss_sum input cl.target

/-- Broadcasting a (reversed) shape against itself succeeds and is the
identity. -/
theorem bdims_self (r : List ℕ) : bdims r r = some r := by
  induction r with
  | nil => rfl
  | cons x xs ih => simp [bdims, ih]

/-- Broadcasting a shape against itself succeeds and is the identity. -/
theorem broadcastShapes_self (s : List ℕ) : broadcastShapes s s = some s := by
  simp [broadcastShapes, bdims_self]

/-- Every multi-index enumerated for a shape has the shape's length, and
reading it back through the broadcast adjustment is the identity (indices in
a size-1 dimension can only be 0). -/
theorem indicesOf_spec (s : List ℕ) :
    ∀ ix ∈ indicesOf s, ix.length = s.length
      ∧ (s.zip ix).map (fun p => if p.1 = 1 then 0 else p.2) = ix := by
  induction s with
  | nil =>
    intro ix hix
    simp only [indicesOf, List.mem_singleton] at hix
    subst hix
    exact ⟨rfl, rfl⟩
  | cons d rest ih =>
    intro ix hix
    simp only [indicesOf, List.mem_flatMap, List.mem_map] at hix
    rcases hix with ⟨i, hi, ix', hix', rfl⟩
    rcases ih ix' hix' with ⟨hlen, hmap⟩
    have hi' : i < d := List.mem_range.1 hi
    refine ⟨by simp [hlen], ?_⟩
    simp only [List.zip_cons_cons, List.map_cons, hmap]
    by_cases hd : d = 1
    · subst hd
      have : i = 0 := Nat.lt_one_iff.1 hi'
      simp [this]
    · simp [hd]

/-- Reading a tensor whose shape is exactly the enumerated shape is plain
indexing. -/
theorem readB_self (t : TensorND) (ix : List ℕ) (hix : ix ∈ indicesOf t.shape) :
    readB t ix = t.val ix := by
  rcases indicesOf_spec t.shape ix hix with ⟨hlen, hmap⟩
  rw [readB, hlen, Nat.sub_self, List.drop_zero, hmap]

/-- C9 counterexample: a stored target of shape `[2]` (values 1 and 2) and a
candidate of shape `[1]` (value 5).  The shapes disagree, yet `mse_loss`
broadcasts the candidate across the target and returns
`(5-1)² + (5-2)² = 25` without raising — the claimed "error if and only if
shapes disagree" fails in the only-if direction. -/
theorem ContentLoss_broadcast_no_error :
    ContentLoss.forward ⟨⟨[2], fun ix => ((ix.headD 0 : ℕ) : ℚ) + 1⟩⟩
        ⟨[1], fun _ => 5⟩
      = Except.ok 25
    ∧ ([1] : List ℕ) ≠ [2] := by
  refine ⟨?_, by simp⟩
  show Except.ok (((indicesOf [2]).map
      (fun ix => (readB ⟨[1], fun _ => 5⟩ ix
        - readB ⟨[2], fun ix => ((ix.headD 0 : ℕ) : ℚ) + 1⟩ ix) ^ 2)).sum)
    = Except.ok 25
  have hidx : indicesOf [2] = [[0], [1]] := rfl
  rw [hidx]
  simp only [List.map_cons, List.map_nil, List.sum_cons, List.sum_nil]
  norm_num [readB]

/-- C9 (amended): `ContentLoss.forward` raises an error if and only if the
candidate's shape is not broadcastable against the stored target's shape;
when the shapes are identical it returns the squared-error sum between
candidate and target.  (When the shapes differ but are broadcastable, torch
merely warns and computes the broadcast squared-error sum.) -/
theorem ContentLoss_shape_spec (tgt inp : TensorND) :
    ((ContentLoss.forward ⟨tgt⟩ inp).isOk = true
        ↔ (broadcastShapes inp.shape tgt.shape).isSome = true)
    ∧ (inp.shape = tgt.shape →
        ContentLoss.forward ⟨tgt⟩ inp
          = Except.ok (((indicesOf inp.shape).map
              (fun ix => (inp.val ix - tgt.val ix) ^ 2)).sum)) := by
  constructor
  · show ((mse_loss_sum inp tgt).isOk = true ↔ _)
    rw [mse_loss_sum]
    cases hbs : broadcastShapes inp.shape tgt.shape with
    | none => simp [Except.isOk, Except.toBool]
    | some s => simp [Except.isOk, Except.toBool]
  · intro hsh
    show mse_loss_sum inp tgt = _
    rw [mse_loss_sum, hsh, broadcastShapes_self]
    simp only []
    congr 1
    refine congrArg List.sum (List.map_congr_left (fun ix hix => ?_))
    have h1 : readB inp ix = inp.val ix := by
      apply readB_self
      rw [hsh]
      exact hix
    have h2 : readB tgt ix = tgt.val ix := readB_self tgt ix hix
    rw [h1, h2]

/-- Witness for C9's amended shape condition at concrete tensors of equal
shape `[1]`: the forward call returns the squared-error sum `(5 - 3)²`. -/
theorem ContentLoss_shape_spec_witness :
    ContentLoss.forward ⟨⟨[1], fun _ => 3⟩⟩ ⟨[1], fun _ => 5⟩
      = Except.ok (((indicesOf [1]).map
          (fun _ => ((5 : ℚ) - 3) ^ 2)).sum) :=
  (ContentLoss_shape_spec ⟨[1], fun _ => 3⟩ ⟨[1], fun _ => 5⟩).2 rfl

/-- Python's built-in `round` on an exact rational: round to nearest, ties to
even (banker's rounding).  The source computes its rounded quantities in
floating point; the embedding uses the exact rational value. -/
def roundHalfEven (q : ℚ) : ℤ :=
  if q - ⌊q⌋ < 1 / 2 then ⌊q⌋
  else if 1 / 2 < q - ⌊q⌋ then ⌊q⌋ + 1
  else if ⌊q⌋ % 2 = 0 then ⌊q⌋ else ⌊q⌋ + 1

/-- Embedding of `size_to_fit(size, max_dim, scale_up)` (lines 124-133):
given `(w, h)`, if upscaling is off and both sides already fit within
`max_dim`, the size is returned unchanged; otherwise the longer side is set
to `max_dim` and the shorter side to `round(max_dim * short / long)`. -/
def size_to_fit (size : ℕ × ℕ) (max_dim : ℕ) ( scale_up : Bool) : ℕ × ℕ :=
  let w := size.1
  let h := size.2
  if scale_up = false ∧ max h w ≤ max_dim then (w, h)
  else if w < h then ((roundHalfEven ((max_dim * w : ℚ) / (h : ℚ))).toNat, max_dim)
  else (max_dim, (roundHalfEven ((max_dim * h : ℚ) / (w : ℚ))).toNat)

/-- The `i`-th value yielded by `gen_scales(start, n)` (lines 136-138):
`round(start * pow(2, i / 2))`.  For even `i` the value `start * 2 ^ (i / 2)`
is an integer and rounds to itself.  For odd `i` it is `n * sqrt 2` with
`n = start * 2 ^ ((i - 1) / 2)`, which is irrational for `n > 0` and hence
never a tie, so any rounding mode gives the nearest integer
`⌊n * sqrt 2 + 1 / 2⌋ = ⌊(2 * n * sqrt 2 + 1) / 2⌋
= (⌊sqrt (8 * n ^ 2)⌋ + 1) / 2`, written below with the natural-number
square root (for `n = 0` both formulas give 0). -/
def genScale (start i : ℕ) : ℕ :=
  if i % 2 = 0 then start * 2 ^ (i / 2)
  else (Nat.sqrt (8 * (start * 2 ^ (i / 2)) ^ 2) + 1) / 2

/-- Embedding of `gen_scales(start, n)`: the list of the `n` yielded scales. -/
def gen_scales (start n : ℕ) : List ℕ := (List.range n).map (genScale start)

/-- The first yielded scale always equals `start` (so the `scale !=
initial_scale` test in `stylize` is never taken at the first scale). -/
theorem genScale_zero (start : ℕ) : genScale start 0 = start := by
  simp [genScale]

/-- Evaluation rule for the natural square root. -/
theorem sqrt_eval (a n : ℕ) (h1 : a * a ≤ n) (h2 : n < (a + 1) * (a + 1)) :
    Nat.sqrt n = a :=
  (Nat.eq_sqrt.mpr ⟨h1, h2⟩).symm

/-- For a starting scale of at least 2, every later yielded scale strictly
exceeds the starting scale (so the `scale != initial_scale` test in `stylize`
is taken at every non-first scale). -/
theorem genScale_gt_start (s0 i : ℕ) (h2 : 2 ≤ s0) (hi : 1 ≤ i) :
    s0 < genScale s0 i := by
  rw [genScale]
  by_cases hpar : i % 2 = 0
  · rw [if_pos hpar]
    have hq : 1 ≤ i / 2 := by omega
    have hpow : 2 ≤ 2 ^ (i / 2) :=
      le_trans (by norm_num) (Nat.pow_le_pow_right (by norm_num) hq)
    calc s0 = s0 * 1 := (mul_one s0).symm
      _ < s0 * 2 := by omega
      _ ≤ s0 * 2 ^ (i / 2) := Nat.mul_le_mul_left s0 hpow
  · rw [if_neg hpar]
    have hns : s0 ≤ s0 * 2 ^ (i / 2) := by
      calc s0 = s0 * 1 := (mul_one s0).symm
        _ ≤ s0 * 2 ^ (i / 2) := Nat.mul_le_mul_left s0 (Nat.one_le_two_pow)
    have hn2 : 2 ≤ s0 * 2 ^ (i / 2) := le_trans h2 hns
    have hsq : 2 * (s0 * 2 ^ (i / 2)) + 1
        ≤ Nat.sqrt (8 * (s0 * 2 ^ (i / 2)) ^ 2) := by
      rw [Nat.le_sqrt]
      nlinarith [hn2]
    have hdiv : s0 * 2 ^ (i / 2) + 1
        ≤ (Nat.sqrt (8 * (s0 * 2 ^ (i / 2)) ^ 2) + 1) / 2 := by
      have h22 : (2 * (s0 * 2 ^ (i / 2)) + 2) / 2 = s0 * 2 ^ (i / 2) + 1 := by omega
      calc s0 * 2 ^ (i / 2) + 1 = (2 * (s0 * 2 ^ (i / 2)) + 2) / 2 := h22.symm
        _ ≤ (Nat.sqrt (8 * (s0 * 2 ^ (i / 2)) ^ 2) + 1) / 2 :=
          Nat.div_le_div_right (by omega)
    omega

/-- The freshly constructed `optim.Adam([self.image], lr=step_size)` over the
single image parameter of spatial shape `(h, w)` (the image tensor has
`1 × 3 × h × w` entries): on first use Adam initializes the parameter's state
to step 0 with zero moment buffers, with the default hyperparameters
`betas=(0.9, 0.999)`, `eps=1e-8`, `weight_decay=0`. -/
def freshAdam (lr : ℚ) (shape : ℕ × ℕ) : AdamSD :=
  { state := [{ step := 0
              , exp_avg := zerosT (3 * shape.1 * shape.2)
              , exp_avg_sq := zerosT (3 * shape.1 * shape.2) }]
  , param_groups := [{ lr := lr, beta1 := 9 / 10, beta2 := 999 / 1000
                     , eps := 1 / 100000000, weight_decay := 0 }] }

/-- The image's spatial shape `(ch, cw)` at scale index `i` of a run:
`cw, ch = size_to_fit(content_img.size, scale, scale_up=True)` (line 201);
this is the shape passed to `scale_adam` (line 234). -/
def shapeAt (contentSize : ℕ × ℕ) (s0 i : ℕ) : ℕ × ℕ :=
  ((size_to_fit contentSize (genScale s0 i) true).2,
    (size_to_fit contentSize (genScale s0 i) true).1)

/-- The optimizer thread of the scale loop of `StyleTransfer.stylize`
(lines 198-247), with the iteration loop's effect on the optimizer state
abstracted as `runIters` (it involves the external feature extractor and
gradients).  Returns, for scale index `i`, the pair of the optimizer state at
the start of the iteration loop and the state at the end of the scale.  At
index 0 `opt` is still `None` and the yielded scale equals `initial_scale`
(theorem `genScale_zero`), so the optimizer is the fresh one; at a later
index a fresh `opt2` is built and — only when the yielded scale differs from
`initial_scale` — its state is replaced by `scale_adam` of the previous
scale's final state (lines 232-236). -/
def stylizeOpt (iB iL : Tensor → ℕ × ℕ → Tensor) (runIters : ℕ → AdamSD → AdamSD)
    (contentSize : ℕ × ℕ) (s0 : ℕ) (lr : ℚ) : ℕ → AdamSD × AdamSD
  | 0 =>
    let st := freshAdam lr (shapeAt contentSize s0 0)
    (st, runIters 0 st)
  | i + 1 =>
    let prev := (stylizeOpt iB iL runIters contentSize s0 lr i).2
    let sh := shapeAt contentSize s0 (i + 1)
    let st := if genScale s0 (i + 1) = s0 then freshAdam lr sh
              else scale_adam iB iL prev sh
    (st, runIters (i + 1) st)

/-- Interpolation chosen for the concrete C1 runs: the identity. -/
def idInterp : Tensor → ℕ × ℕ → Tensor := fun t _ => t

/-- A concrete stand-in for a scale's 500 optimizer iterations: each
parameter's step counter advances by 500. -/
def bump500 : ℕ → AdamSD → AdamSD :=
  fun _ sd => { sd with state := sd.state.map (fun p => { p with step := p.step + 500 }) }

/-- C1 counterexample: a run with `initial_scale = 1` and at least two
scales.  The second yielded scale is `round(1 * sqrt 2) = 1`, equal to
`initial_scale`, so the guard `scale != initial_scale` fails and the
optimizer entering scale index 1 is the freshly initialized one: its step
counter is 0 (and its moments are the zero buffers), although the previous
scale ended with step counter 500 and the resampler would have carried that
counter over.  The optimizer is therefore restarted cold at a non-first
scale. -/
theorem stylize_cold_restart_at_second_scale :
    ((stylizeOpt idInterp idInterp bump500 (2, 2) 1 (1 / 50) 1).1.state.map
        ParamState.step = [0])
    ∧ ((scale_adam idInterp idInterp
          ((stylizeOpt idInterp idInterp bump500 (2, 2) 1 (1 / 50) 0).2)
          (shapeAt (2, 2) 1 1)).state.map ParamState.step = [500]) := by
  have h8 : Nat.sqrt 8 = 2 := sqrt_eval 2 8 (by norm_num) (by norm_num)
  have hg1 : genScale 1 1 = 1 := by
    rw [genScale]
    norm_num [h8]
  constructor
  · simp [stylizeOpt, hg1, freshAdam]
  · simp [stylizeOpt, scale_adam, bump500, freshAdam]

/-- C1 (amended): at every scale after the first whose yielded scale value
differs from `initial_scale` — which is every non-first scale whenever
`initial_scale ≥ 2` — the optimizer state entering the iteration loop is
exactly the `scale_adam` resample of the previous scale's final state at the
new image shape, and in particular the step counters are carried over
unchanged rather than reset. -/
theorem stylize_resample_carryover
    (iB iL : Tensor → ℕ × ℕ → Tensor) (runIters : ℕ → AdamSD → AdamSD)
    (contentSize : ℕ × ℕ) (s0 : ℕ) (lr : ℚ) (i : ℕ)
    (h : 2 ≤ s0 ∨ genScale s0 (i + 1) ≠ s0) :
    (stylizeOpt iB iL runIters contentSize s0 lr (i + 1)).1
      = scale_adam iB iL ((stylizeOpt iB iL runIters contentSize s0 lr i).2)
          (shapeAt contentSize s0 (i + 1))
    ∧ (stylizeOpt iB iL runIters contentSize s0 lr (i + 1)).1.state.map
          ParamState.step
      = ((stylizeOpt iB iL runIters contentSize s0 lr i).2).state.map
          ParamState.step := by
  have hne : genScale s0 (i + 1) ≠ s0 := by
    rcases h with h2 | hne
    · exact Nat.ne_of_gt (genScale_gt_start s0 (i + 1) h2 (Nat.succ_le_succ (Nat.zero_le i)))
    · exact hne
  have h1 : (stylizeOpt iB iL runIters contentSize s0 lr (i + 1)).1
      = scale_adam iB iL ((stylizeOpt iB iL runIters contentSize s0 lr i).2)
          (shapeAt contentSize s0 (i + 1)) := by
    simp only [stylizeOpt]
    rw [if_neg hne]
  exact ⟨h1, by rw [h1, scale_adam_step_map]⟩

/-- Witness for C1's amended statement on a concrete run: content image
100×50, `initial_scale = 64` (≥ 2), at scale index 1 the optimizer state is
the resample of scale 0's final state with the step counters carried over. -/
theorem stylize_resample_carryover_witness :
    (stylizeOpt idInterp idInterp bump500 (100, 50) 64 (1 / 50) 1).1
      = scale_adam idInterp idInterp
          ((stylizeOpt idInterp idInterp bump500 (100, 50) 64 (1 / 50) 0).2)
          (shapeAt (100, 50) 64 1)
    ∧ (stylizeOpt idInterp idInterp bump500 (100, 50) 64 (1 / 50) 1).1.state.map
          ParamState.step
      = ((stylizeOpt idInterp idInterp bump500 (100, 50) 64 (1 / 50) 0).2).state.map
          ParamState.step :=
  stylize_resample_carryover idInterp idInterp bump500 (100, 50) 64 (1 / 50) 0
    (Or.inl (by norm_num))

end StyleTransferPy
